import Mathlib

/-!
# FTCS 1D diffusion stepper: shallow embedding

Shallow embedding of the executable cells of `diffusion_1D_fd_schemes.ipynb`:
matrix assembly for the FTCS update matrix `A`, Dirichlet boundary injection
into the vector `B`, and the fixed-step time-marching loop
`U_{k+1} = A·U_k + B`, `t_{k+1} = t_k + dT`.

Numpy arrays of shape `(n,n)` / `(n,)` are embedded as total functions
`Nat → Nat → α` / `Nat → α` together with the bound `n`; every indexed write
of the source goes through a bounds check (`writeEntry` / `writeVec`) and the
whole assembly is `Option`-valued, because an out-of-range numpy write raises
`IndexError`.  Arithmetic is over an arbitrary linear ordered field
(instantiated at `ℚ` for concrete evaluation and at `ℝ` where the run's
half-sine initial condition `100·sin(π·x/L)` is needed).
-/

namespace Diffusion

/-- Overwrite entry `(i, j)` of a matrix (unchecked functional update). -/
def updEntry {α : Type} (M : Nat → Nat → α) (i j : Nat) (v : α) : Nat → Nat → α :=
  fun a b => if a = i ∧ b = j then v else M a b

/-- Bounds-checked write `A[i, j] = v` on an `n×n` numpy array:
out-of-range indices raise, embedded as `none`. -/
def writeEntry {α : Type} (n : Nat) (M : Nat → Nat → α) (i j : Nat) (v : α) :
    Option (Nat → Nat → α) :=
  if i < n ∧ j < n then some (updEntry M i j v) else none

/-- `np.zeros((n, n))`. -/
def zeroMat {α : Type} [LinearOrderedField α] : Nat → Nat → α :=
  fun _ _ => 0

/-- Overwrite entry `i` of a vector (unchecked functional update). -/
def updVec {α : Type} (v : Nat → α) (i : Nat) (x : α) : Nat → α :=
  fun a => if a = i then x else v a

/-- Bounds-checked write `B[i] = x` on a length-`n` numpy array. -/
def writeVec {α : Type} (n : Nat) (v : Nat → α) (i : Nat) (x : α) : Option (Nat → α) :=
  if i < n then some (updVec v i x) else none

/-- `np.zeros((n, 1))` (resp. `np.zeros(m)`), viewed as a vector. -/
def zeroVec {α : Type} [LinearOrderedField α] : Nat → α :=
  fun _ => 0

/-- The body of the assembly loop, for one row index `i`:

```
if i == 0:
    A[i, i] = 1-(2*s); A[i, i+1] = s
elif i == n-1:
    A[i, i-1] = s; A[i, i] = 1-(2*s)
else:
    A[i, i] = 1-(2*s); A[i, i-1] = s; A[i, i+1] = s
```

threaded through `Option` so that an out-of-range write aborts. -/
def assembleStep {α : Type} [LinearOrderedField α] (n : Nat) (s : α)
    (acc : Option (Nat → Nat → α)) (i : Nat) : Option (Nat → Nat → α) :=
  match acc with
  | none => none
  | some A =>
    if i = 0 then
      match writeEntry n A i i (1 - 2*s) with
      | none => none
      | some A1 => writeEntry n A1 i (i+1) s
    else if i = n - 1 then
      match writeEntry n A i (i-1) s with
      | none => none
      | some A1 => writeEntry n A1 i i (1 - 2*s)
    else
      match writeEntry n A i i (1 - 2*s) with
      | none => none
      | some A1 =>
        match writeEntry n A1 i (i-1) s with
        | none => none
        | some A2 => writeEntry n A2 i (i+1) s

/-- `A = np.zeros((n,n))` followed by `for i in range(n): ...` — the full
matrix-assembly cell. -/
def assembleA {α : Type} [LinearOrderedField α] (n : Nat) (s : α) :
    Option (Nat → Nat → α) :=
  (List.range n).foldl (assembleStep n s) (some zeroMat)

/-- The Dirichlet boundary-condition cell: `B = np.zeros((n,1))` (from the
assembly cell) then `B[0] = s; B[n-1] = s`. -/
def applyDirichlet {α : Type} [LinearOrderedField α] (n : Nat) (s : α) :
    Option (Nat → α) :=
  match writeVec n zeroVec 0 s with
  | none => none
  | some B1 => writeVec n B1 (n-1) s

/-- Closed form of the boundary vector the Dirichlet cell produces
(the second write `B[n-1] = s` wins on overlap). -/
def dirB {α : Type} [LinearOrderedField α] (n : Nat) (s : α) : Nat → α :=
  fun i => if i = n - 1 then s else if i = 0 then s else 0

/-- Closed form of the assembled FTCS matrix: diagonal `1-2s`, sub- and
super-diagonal `s`, all other entries (and everything outside the `n×n`
block) zero. -/
def triA {α : Type} [LinearOrderedField α] (n : Nat) (s : α) : Nat → Nat → α :=
  fun i j =>
    if i < n ∧ j < n then
      if j = i then 1 - 2*s
      else if j + 1 = i ∨ j = i + 1 then s
      else 0
    else 0

/-- The assembled matrix after the loop has processed rows `0, …, k-1`:
rows below `k` agree with `triA`, rows from `k` on are still zero. -/
def triUpTo {α : Type} [LinearOrderedField α] (k n : Nat) (s : α) : Nat → Nat → α :=
  fun i j => if i < k then triA n s i j else 0

/-- `np.matmul(A, U[:, np.newaxis])` restricted to the first `n` coordinates. -/
def matvec {α : Type} [LinearOrderedField α] (n : Nat) (A : Nat → Nat → α)
    (U : Nat → α) : Nat → α :=
  fun i => ∑ j ∈ Finset.range n, A i j * U j

/-- One marching step `U_xt_n = np.matmul(A, U_xt[:, np.newaxis]) + B`. -/
def stepU {α : Type} [LinearOrderedField α] (n : Nat) (A : Nat → Nat → α)
    (B U : Nat → α) : Nat → α :=
  fun i => matvec n A U i + B i

/-- The `k`-th iterate of the marching step from the initial state `U0`. -/
def Ustate {α : Type} [LinearOrderedField α] (n : Nat) (A : Nat → Nat → α)
    (B U0 : Nat → α) : Nat → Nat → α
  | 0 => U0
  | k+1 => stepU n A B (Ustate n A B U0 k)

/-- One iteration of the marching loop on the accumulator
(rows written so far, current state `U_xt`): compute the next state, append it
as the next row, and carry it forward. -/
def marchAcc {α : Type} [LinearOrderedField α] (n : Nat) (A : Nat → Nat → α)
    (B : Nat → α) (st : List (Nat → α) × (Nat → α)) (_ : Nat) :
    List (Nat → α) × (Nat → α) :=
  (st.1 ++ [stepU n A B st.2], stepU n A B st.2)

/-- The result grid `U` of the run: `U = np.zeros((m,n)); U[0,:] = U_xt;
for i in range(m-1): ...` — row `0` is the initial condition and the loop body
writes row `i+1` on each of its `m-1` iterations (requires `m ≥ 1`, as does
the source's `U[0,:] = U_xt`). -/
def marchFold {α : Type} [LinearOrderedField α] (m n : Nat) (A : Nat → Nat → α)
    (B U0 : Nat → α) : List (Nat → α) :=
  ((List.range (m-1)).foldl (marchAcc n A B) ([U0], U0)).1

/-- The time stamps: `t[0] = t0` and the loop body `t[i+1] = t[i] + dT`. -/
def tstamp {α : Type} [LinearOrderedField α] (t0 dT : α) : Nat → α
  | 0 => t0
  | k+1 => tstamp t0 dT k + dT

/-- The length-`m` time array produced by the run. -/
def tgrid {α : Type} [LinearOrderedField α] (m : Nat) (t0 dT : α) : List α :=
  (List.range m).map (tstamp t0 dT)

/-- The stepping number of the parameter cell:
`s = kappa*dT/(dX**2)` with `dT = T/m` and `dX = L/(n+1)`. -/
def sval {α : Type} [LinearOrderedField α] (kappa L T : α) (n m : Nat) : α :=
  kappa * (T / (m : α)) / (L / ((n : α) + 1))^2

/-- Maximum absolute value over the first `n` entries of a row. -/
def rowMaxAbs {α : Type} [LinearOrderedField α] (n : Nat) (U : Nat → α) : α :=
  ((List.range n).map (fun j => |U j|)).foldl max 0

end Diffusion

namespace Diffusion

/-- An in-bounds matrix write succeeds and performs the functional update. -/
lemma writeEntry_lt {α : Type} (n : Nat) (M : Nat → Nat → α) (i j : Nat) (v : α)
    (hi : i < n) (hj : j < n) : writeEntry n M i j v = some (updEntry M i j v) := by
  unfold writeEntry
  exact if_pos ⟨hi, hj⟩

/-- An in-bounds vector write succeeds and performs the functional update. -/
lemma writeVec_lt {α : Type} (n : Nat) (v : Nat → α) (i : Nat) (x : α)
    (hi : i < n) : writeVec n v i x = some (updVec v i x) := by
  unfold writeVec
  exact if_pos hi

/-- For `n ≥ 1` the Dirichlet cell succeeds and produces `dirB`. -/
lemma applyDirichlet_closed {α : Type} [LinearOrderedField α] (n : Nat) (s : α)
    (hn : 1 ≤ n) : applyDirichlet n s = some (dirB n s) := by
  have h1 := writeVec_lt n (zeroVec (α := α)) 0 s (by omega)
  have h2 := writeVec_lt n (updVec (zeroVec (α := α)) 0 s) (n-1) s (by omega)
  simp only [applyDirichlet, h1, h2]
  rfl

/-- Row `0` of the assembly loop (`i == 0` branch) for `n ≥ 2`: two writes,
both in bounds. -/
lemma assembleStep_at_zero {α : Type} [LinearOrderedField α] (n : Nat) (s : α)
    (hn : 2 ≤ n) (A : Nat → Nat → α) :
    assembleStep n s (some A) 0
      = some (updEntry (updEntry A 0 0 (1 - 2*s)) 0 (0+1) s) := by
  have h1 := writeEntry_lt n A 0 0 (1 - 2*s) (by omega) (by omega)
  have h2 := writeEntry_lt n (updEntry A 0 0 (1 - 2*s)) 0 (0+1) s (by omega) (by omega)
  simp only [assembleStep, if_pos rfl, if_true, h1, h2]

/-- Row `n-1` of the assembly loop (`elif i == n-1` branch) for `n ≥ 2`. -/
lemma assembleStep_at_last {α : Type} [LinearOrderedField α] (n : Nat) (s : α)
    (hn : 2 ≤ n) (A : Nat → Nat → α) :
    assembleStep n s (some A) (n-1)
      = some (updEntry (updEntry A (n-1) (n-1-1) s) (n-1) (n-1) (1 - 2*s)) := by
  have h1 := writeEntry_lt n A (n-1) (n-1-1) s (by omega) (by omega)
  have h2 := writeEntry_lt n (updEntry A (n-1) (n-1-1) s) (n-1) (n-1) (1 - 2*s)
    (by omega) (by omega)
  simp only [assembleStep, if_neg (show ¬(n-1 = 0) by omega), if_pos rfl, if_true, h1, h2]

/-- An interior row `1 ≤ k < n-1` of the assembly loop (`else` branch). -/
lemma assembleStep_at_mid {α : Type} [LinearOrderedField α] (n : Nat) (s : α)
    (k : Nat) (hk0 : 1 ≤ k) (hk : k < n - 1) (A : Nat → Nat → α) :
    assembleStep n s (some A) k
      = some (updEntry (updEntry (updEntry A k k (1 - 2*s)) k (k-1) s) k (k+1) s) := by
  have h1 := writeEntry_lt n A k k (1 - 2*s) (by omega) (by omega)
  have h2 := writeEntry_lt n (updEntry A k k (1 - 2*s)) k (k-1) s (by omega) (by omega)
  have h3 := writeEntry_lt n (updEntry (updEntry A k k (1 - 2*s)) k (k-1) s) k (k+1) s
    (by omega) (by omega)
  simp only [assembleStep, if_neg (show ¬(k = 0) by omega),
    if_neg (show ¬(k = n - 1) by omega), h1, h2, h3]

/-- Before the loop starts, nothing has been written. -/
lemma triUpTo_zero {α : Type} [LinearOrderedField α] (n : Nat) (s : α) :
    triUpTo 0 n s = zeroMat (α := α) := by
  funext i j
  simp [triUpTo, zeroMat]

/-- Processing row `0` turns the partially assembled matrix into `triUpTo 1`. -/
lemma upd_row_zero {α : Type} [LinearOrderedField α] (n : Nat) (s : α) (hn : 2 ≤ n) :
    updEntry (updEntry (triUpTo 0 n s) 0 0 (1 - 2*s)) 0 (0+1) s = triUpTo 1 n s := by
  funext a b
  simp only [updEntry, triUpTo, triA]
  split_ifs <;> first | rfl | omega

/-- Processing row `n-1` completes the assembly to `triUpTo n`. -/
lemma upd_row_last {α : Type} [LinearOrderedField α] (n : Nat) (s : α) (hn : 2 ≤ n) :
    updEntry (updEntry (triUpTo (n-1) n s) (n-1) (n-1-1) s) (n-1) (n-1) (1 - 2*s)
      = triUpTo n n s := by
  funext a b
  simp only [updEntry, triUpTo, triA]
  split_ifs <;> first | rfl | omega

/-- Processing an interior row `k` extends `triUpTo k` to `triUpTo (k+1)`. -/
lemma upd_row_mid {α : Type} [LinearOrderedField α] (n : Nat) (s : α)
    (k : Nat) (hk0 : 1 ≤ k) (hk : k < n - 1) :
    updEntry (updEntry (updEntry (triUpTo k n s) k k (1 - 2*s)) k (k-1) s) k (k+1) s
      = triUpTo (k+1) n s := by
  funext a b
  simp only [updEntry, triUpTo, triA]
  split_ifs <;> first | rfl | omega

/-- Loop invariant of the assembly loop for `n ≥ 2`: after the first `k`
iterations the matrix is exactly `triUpTo k n s`. -/
lemma assemble_upto {α : Type} [LinearOrderedField α] (n : Nat) (s : α) (hn : 2 ≤ n) :
    ∀ k, k ≤ n →
      (List.range k).foldl (assembleStep n s) (some zeroMat) = some (triUpTo k n s) := by
  intro k
  induction k with
  | zero =>
    intro _
    simp [List.range_zero, triUpTo_zero]
  | succ k ih =>
    intro hk
    rw [List.range_succ, List.foldl_append, ih (by omega), List.foldl_cons, List.foldl_nil]
    rcases Nat.eq_zero_or_pos k with hk0 | hk0
    · subst hk0
      rw [assembleStep_at_zero n s hn, upd_row_zero n s hn]
    · rcases Nat.lt_or_ge k (n-1) with hkm | hkm
      · rw [assembleStep_at_mid n s k (by omega) hkm, upd_row_mid n s k (by omega) hkm]
      · have hke : k = n - 1 := by omega
        subst hke
        have hsub : n - 1 + 1 = n := by omega
        rw [assembleStep_at_last n s hn, upd_row_last n s hn, hsub]

/-- For `n ≥ 2` the assembly cell succeeds and produces exactly `triA n s`. -/
lemma assembleA_closed {α : Type} [LinearOrderedField α] (n : Nat) (s : α) (hn : 2 ≤ n) :
    assembleA n s = some (triA n s) := by
  rw [assembleA, assemble_upto n s hn n le_rfl]
  congr 1
  funext i j
  simp only [triUpTo, triA]
  split_ifs <;> first | rfl | omega

/-- For `n = 1` the assembly loop takes the `i == 0` branch and its second
write targets the out-of-range entry `A[0, 1]`, so assembly raises. -/
lemma assembleA_one {α : Type} [LinearOrderedField α] (s : α) :
    assembleA 1 s = none := rfl

/-- For `n = 0` the assembly loop body never runs: assembly finishes without
any error, returning the empty (all-zero) matrix. -/
lemma assembleA_zero_n {α : Type} [LinearOrderedField α] (s : α) :
    assembleA 0 s = some zeroMat := rfl

/-- For `n = 0` the Dirichlet cell's first write `B[0] = s` is out of range. -/
lemma applyDirichlet_zero_n {α : Type} [LinearOrderedField α] (s : α) :
    applyDirichlet 0 s = none := rfl

/-- Loop invariant of the marching loop: after `k` iterations the accumulator
holds the first `k+1` iterates as rows and the `k`-th iterate as current
state. -/
lemma marchFold_upto {α : Type} [LinearOrderedField α] (n : Nat) (A : Nat → Nat → α)
    (B U0 : Nat → α) :
    ∀ k, (List.range k).foldl (marchAcc n A B) ([U0], U0)
      = ((List.range (k+1)).map (Ustate n A B U0), Ustate n A B U0 k) := by
  intro k
  induction k with
  | zero =>
    simp [List.range_succ, Ustate]
  | succ k ih =>
    rw [List.range_succ, List.foldl_append, ih, List.foldl_cons, List.foldl_nil]
    rw [show List.range (k+1+1) = List.range (k+1) ++ [k+1] from List.range_succ (k+1),
      List.map_append]
    simp [marchAcc, Ustate]

/-- For `m ≥ 1` the result grid is the list of the first `m` iterates. -/
lemma marchFold_eq_map {α : Type} [LinearOrderedField α] (m n : Nat) (A : Nat → Nat → α)
    (B U0 : Nat → α) (hm : 1 ≤ m) :
    marchFold m n A B U0 = (List.range m).map (Ustate n A B U0) := by
  rw [marchFold, marchFold_upto]
  have hsub : m - 1 + 1 = m := by omega
  rw [hsub]

/-- The result grid has exactly `m` rows. -/
lemma marchFold_length {α : Type} [LinearOrderedField α] (m n : Nat) (A : Nat → Nat → α)
    (B U0 : Nat → α) (hm : 1 ≤ m) :
    (marchFold m n A B U0).length = m := by
  rw [marchFold_eq_map m n A B U0 hm]
  simp

/-- Row `k` of the result grid is the `k`-th iterate of the step map. -/
lemma marchFold_getD {α : Type} [LinearOrderedField α] (m n : Nat) (A : Nat → Nat → α)
    (B U0 : Nat → α) (k : Nat) (hk : k < m) :
    (marchFold m n A B U0).getD k zeroVec = Ustate n A B U0 k := by
  rw [marchFold_eq_map m n A B U0 (by omega)]
  rw [List.getD_eq_getElem?_getD, List.getElem?_map, List.getElem?_range hk]
  rfl

/-- Entry `k` of the time array is the `k`-th time stamp. -/
lemma tgrid_getD {α : Type} [LinearOrderedField α] (m : Nat) (t0 dT : α) (k : Nat)
    (hk : k < m) :
    (tgrid m t0 dT).getD k 0 = tstamp t0 dT k := by
  rw [tgrid, List.getD_eq_getElem?_getD, List.getElem?_map, List.getElem?_range hk]
  rfl

/-- Multiplying row `i < n` of `triA n s` against a vector gives the
three-point FTCS stencil, with the neighbour terms dropped at the ends. -/
lemma matvec_triA {α : Type} [LinearOrderedField α] (n : Nat) (s : α) (U : Nat → α)
    (i : Nat) (hi : i < n) :
    matvec n (triA n s) U i
      = (1 - 2*s) * U i + (if 1 ≤ i then s * U (i-1) else 0)
          + (if i + 1 < n then s * U (i+1) else 0) := by
  unfold matvec
  have hsplit : ∀ j ∈ Finset.range n, triA n s i j * U j
      = (if j = i then (1 - 2*s) * U j else 0)
        + (if 1 ≤ i ∧ j = i - 1 then s * U j else 0)
        + (if j = i + 1 then s * U j else 0) := by
    intro j hj
    rw [Finset.mem_range] at hj
    simp only [triA]
    split_ifs <;> first | (exfalso; omega) | ring
  rw [Finset.sum_congr rfl hsplit, Finset.sum_add_distrib, Finset.sum_add_distrib]
  rw [Finset.sum_ite_eq' (Finset.range n) i (fun j => (1 - 2*s) * U j)]
  rw [Finset.sum_ite_eq' (Finset.range n) (i+1) (fun j => s * U j)]
  have hmid : (∑ j ∈ Finset.range n, if 1 ≤ i ∧ j = i - 1 then s * U j else 0)
      = if 1 ≤ i then s * U (i-1) else 0 := by
    rcases Nat.lt_or_ge i 1 with h1 | h1
    · rw [if_neg (by omega)]
      apply Finset.sum_eq_zero
      intro j hj
      rw [if_neg]
      omega
    · rw [if_pos h1]
      have hcong : ∀ j ∈ Finset.range n, (if 1 ≤ i ∧ j = i - 1 then s * U j else 0)
          = (if j = i - 1 then s * U j else 0) := by
        intro j hj
        split_ifs <;> first | rfl | omega
      rw [Finset.sum_congr rfl hcong,
        Finset.sum_ite_eq' (Finset.range n) (i-1) (fun j => s * U j),
        if_pos (Finset.mem_range.mpr (by omega))]
  rw [hmid, if_pos (Finset.mem_range.mpr hi)]
  by_cases hr : i + 1 < n
  · rw [if_pos (Finset.mem_range.mpr hr), if_pos hr]
  · rw [if_neg (fun hc => hr (Finset.mem_range.mp hc)), if_neg hr]

/-- Every entry of the boundary vector is at most `s` in absolute value. -/
lemma dirB_abs_le {α : Type} [LinearOrderedField α] (n : Nat) (s : α) (hs0 : 0 ≤ s)
    (i : Nat) : |dirB n s i| ≤ s := by
  unfold dirB
  split_ifs <;> simp [abs_of_nonneg hs0, hs0]

/-- One FTCS step with `0 ≤ s ≤ 1/2` and boundary values `1` keeps every
entry within any bound `M ≥ 1` that holds for the current state. -/
lemma stepU_bound {α : Type} [LinearOrderedField α] (n : Nat) (s M : α)
    (hs0 : 0 ≤ s) (hs1 : 2*s ≤ 1) (hM : 1 ≤ M) (U : Nat → α)
    (hU : ∀ j, j < n → |U j| ≤ M) (i : Nat) (hi : i < n) :
    |stepU n (triA n s) (dirB n s) U i| ≤ M := by
  have h2s : 0 ≤ 1 - 2*s := by linarith
  have habsC : |(1 - 2*s) * U i| ≤ (1 - 2*s) * M := by
    rw [abs_mul, abs_of_nonneg h2s]
    exact mul_le_mul_of_nonneg_left (hU i hi) h2s
  have habsL : |(if 1 ≤ i then s * U (i-1) else 0)| ≤ (if 1 ≤ i then s * M else 0) := by
    split_ifs with h
    · rw [abs_mul, abs_of_nonneg hs0]
      exact mul_le_mul_of_nonneg_left (hU (i-1) (by omega)) hs0
    · simp
  have habsR : |(if i + 1 < n then s * U (i+1) else 0)|
      ≤ (if i + 1 < n then s * M else 0) := by
    split_ifs with h
    · rw [abs_mul, abs_of_nonneg hs0]
      exact mul_le_mul_of_nonneg_left (hU (i+1) h) hs0
    · simp
  have habsB := dirB_abs_le n s hs0 i
  have hsM : s ≤ s * M := by nlinarith
  have htot : |stepU n (triA n s) (dirB n s) U i|
      ≤ (1 - 2*s) * M + (if 1 ≤ i then s * M else 0)
        + (if i + 1 < n then s * M else 0) + |dirB n s i| := by
    calc |stepU n (triA n s) (dirB n s) U i|
        = |((1 - 2*s) * U i + (if 1 ≤ i then s * U (i-1) else 0)
            + (if i + 1 < n then s * U (i+1) else 0)) + dirB n s i| := by
          rw [stepU, matvec_triA n s U i hi]
      _ ≤ |((1 - 2*s) * U i + (if 1 ≤ i then s * U (i-1) else 0)
            + (if i + 1 < n then s * U (i+1) else 0))| + |dirB n s i| := abs_add _ _
      _ ≤ (|(1 - 2*s) * U i| + |(if 1 ≤ i then s * U (i-1) else 0)|
            + |(if i + 1 < n then s * U (i+1) else 0)|) + |dirB n s i| := by
          have hstep1 := abs_add ((1 - 2*s) * U i) (if 1 ≤ i then s * U (i-1) else 0)
          have hstep2 := abs_add ((1 - 2*s) * U i + (if 1 ≤ i then s * U (i-1) else 0))
            (if i + 1 < n then s * U (i+1) else 0)
          linarith
      _ ≤ (1 - 2*s) * M + (if 1 ≤ i then s * M else 0)
            + (if i + 1 < n then s * M else 0) + |dirB n s i| := by
          linarith
  by_cases h0 : 1 ≤ i
  · by_cases hr : i + 1 < n
    · have hB0 : dirB n s i = 0 := by
        unfold dirB
        rw [if_neg (by omega), if_neg (by omega)]
      rw [hB0] at htot
      rw [if_pos h0, if_pos hr] at htot
      simp only [abs_zero] at htot
      nlinarith
    · rw [if_pos h0, if_neg hr] at htot
      nlinarith
  · by_cases hr : i + 1 < n
    · rw [if_neg h0, if_pos hr] at htot
      nlinarith
    · rw [if_neg h0, if_neg hr] at htot
      nlinarith

/-- The sup-norm bound `M ≥ 1` propagates through every marching iterate. -/
lemma Ustate_bound {α : Type} [LinearOrderedField α] (n : Nat) (s M : α)
    (hs0 : 0 ≤ s) (hs1 : 2*s ≤ 1) (hM : 1 ≤ M) (U0 : Nat → α)
    (h0 : ∀ j, j < n → |U0 j| ≤ M) :
    ∀ k j, j < n → |Ustate n (triA n s) (dirB n s) U0 k j| ≤ M := by
  intro k
  induction k with
  | zero => exact h0
  | succ k ih =>
    intro j hj
    exact stepU_bound n s M hs0 hs1 hM _ ih j hj

/-- A fold of `max` stays below any bound on the seed and the elements. -/
lemma foldl_max_le {α : Type} [LinearOrderedField α] (l : List α) :
    ∀ a M : α, a ≤ M → (∀ x ∈ l, x ≤ M) → l.foldl max a ≤ M := by
  induction l with
  | nil =>
    intro a M ha _
    simpa using ha
  | cons b l ih =>
    intro a M ha hl
    rw [List.foldl_cons]
    exact ih (max a b) M (max_le ha (hl b (List.mem_cons_self b l)))
      fun x hx => hl x (by simp [hx])

/-- The seed is below a fold of `max`. -/
lemma le_foldl_max_init {α : Type} [LinearOrderedField α] (l : List α) :
    ∀ a : α, a ≤ l.foldl max a := by
  induction l with
  | nil =>
    intro a
    simp
  | cons b l ih =>
    intro a
    rw [List.foldl_cons]
    exact le_trans (le_max_left a b) (ih (max a b))

/-- Every list element is below a fold of `max` over the list. -/
lemma le_foldl_max_mem {α : Type} [LinearOrderedField α] (l : List α) :
    ∀ (a x : α), x ∈ l → x ≤ l.foldl max a := by
  induction l with
  | nil =>
    intro a x hx
    simp at hx
  | cons b l ih =>
    intro a x hx
    rw [List.foldl_cons]
    rcases List.mem_cons.mp hx with hxb | hxl
    · subst hxb
      exact le_trans (le_max_right a x) (le_foldl_max_init l (max a x))
    · exact ih (max a b) x hxl

/-- A pointwise bound on a row bounds its maximum absolute value. -/
lemma rowMaxAbs_le {α : Type} [LinearOrderedField α] (n : Nat) (U : Nat → α) (M : α)
    (hM : 0 ≤ M) (h : ∀ j, j < n → |U j| ≤ M) : rowMaxAbs n U ≤ M := by
  apply foldl_max_le _ _ _ hM
  intro x hx
  rcases List.mem_map.mp hx with ⟨j, hj, rfl⟩
  exact h j (List.mem_range.mp hj)

/-- Each entry of a row is below the row's maximum absolute value. -/
lemma le_rowMaxAbs {α : Type} [LinearOrderedField α] (n : Nat) (U : Nat → α) (j : Nat)
    (hj : j < n) : |U j| ≤ rowMaxAbs n U := by
  apply le_foldl_max_mem
  exact List.mem_map_of_mem _ (List.mem_range.mpr hj)

/-- For the `n = 39`, `m = 600` run with `0 ≤ s ≤ 1/2`, an initial row that
is bounded by `100` and attains `100` at node `19` dominates row `599`. -/
lemma run_decay_bound (s : ℝ) (hs0 : 0 ≤ s) (hs1 : 2*s ≤ 1) (U0 : Nat → ℝ)
    (habs : ∀ j, j < 39 → |U0 j| ≤ 100) (hmid : |U0 19| = 100) :
    rowMaxAbs 39 ((marchFold 600 39 (triA 39 s) (dirB 39 s) U0).getD 599 zeroVec)
      ≤ rowMaxAbs 39 ((marchFold 600 39 (triA 39 s) (dirB 39 s) U0).getD 0 zeroVec) := by
  rw [marchFold_getD 600 39 _ _ _ 599 (by norm_num),
    marchFold_getD 600 39 _ _ _ 0 (by norm_num)]
  have hlast : rowMaxAbs 39 (Ustate 39 (triA 39 s) (dirB 39 s) U0 599) ≤ 100 := by
    apply rowMaxAbs_le _ _ _ (by norm_num)
    intro j hj
    exact Ustate_bound 39 s 100 hs0 hs1 (by norm_num) U0 habs 599 j hj
  have hfirst : (100:ℝ) ≤ rowMaxAbs 39 U0 := by
    have h := le_rowMaxAbs 39 U0 19 (by norm_num)
    rw [hmid] at h
    exact h
  have h0 : Ustate 39 (triA 39 s) (dirB 39 s) U0 0 = U0 := rfl
  rw [h0]
  linarith

end Diffusion

namespace Diffusion

/-- Claim C1: for every step index `k` with `k + 1 < m`, the marching loop
stores `A·U_k + B` as row `k+1` of the result grid, and the time stamp
satisfies `t_{k+1} = t_k + dT`. -/
theorem march_writes_next_row_and_time (m n : Nat) (A : Nat → Nat → ℚ)
    (B U0 : Nat → ℚ) (t0 dT : ℚ) (k : Nat) (hk : k + 1 < m) :
    (marchFold m n A B U0).getD (k+1) zeroVec
        = stepU n A B ((marchFold m n A B U0).getD k zeroVec) ∧
    (tgrid m t0 dT).getD (k+1) 0 = (tgrid m t0 dT).getD k 0 + dT := by
  constructor
  · rw [marchFold_getD m n A B U0 (k+1) hk, marchFold_getD m n A B U0 k (by omega)]
    rfl
  · rw [tgrid_getD m t0 dT (k+1) hk, tgrid_getD m t0 dT k (by omega)]
    rfl

/-- Witness for claim C1 at `m = 2`, `n = 1`, `k = 0` with concrete data. -/
theorem march_writes_next_row_and_time_witness :
    (marchFold 2 1 (fun _ _ => (2:ℚ)) (fun _ => 3) (fun _ => 5)).getD 1 zeroVec
        = stepU 1 (fun _ _ => (2:ℚ)) (fun _ => 3)
            ((marchFold 2 1 (fun _ _ => (2:ℚ)) (fun _ => 3) (fun _ => 5)).getD 0 zeroVec) ∧
    (tgrid 2 (0:ℚ) 20).getD 1 0 = (tgrid 2 (0:ℚ) 20).getD 0 0 + 20 :=
  march_writes_next_row_and_time 2 1 (fun _ _ => (2:ℚ)) (fun _ => 3) (fun _ => 5)
    0 20 0 (by norm_num)

/-- Claim C2: for every step count `m ≥ 1` the marching loop terminates after
its `m-1` iterations with a result grid of exactly `m` rows, row `0` being
the initial condition and row `k` the `k`-th successive state. -/
theorem march_grid_shape (m n : Nat) (A : Nat → Nat → ℚ) (B U0 : Nat → ℚ)
    (hm : 1 ≤ m) :
    (marchFold m n A B U0).length = m ∧
    (marchFold m n A B U0).getD 0 zeroVec = U0 ∧
    ∀ k, k < m → (marchFold m n A B U0).getD k zeroVec = Ustate n A B U0 k := by
  refine ⟨marchFold_length m n A B U0 hm, ?_, fun k hk => marchFold_getD m n A B U0 k hk⟩
  rw [marchFold_getD m n A B U0 0 (by omega)]
  rfl

/-- Witness for claim C2 at `m = 2`, `n = 1` with concrete data. -/
theorem march_grid_shape_witness :
    (marchFold 2 1 (fun _ _ => (2:ℚ)) (fun _ => 3) (fun _ => 7)).length = 2 ∧
    (marchFold 2 1 (fun _ _ => (2:ℚ)) (fun _ => 3) (fun _ => 7)).getD 0 zeroVec
      = (fun _ => (7:ℚ)) ∧
    (marchFold 2 1 (fun _ _ => (2:ℚ)) (fun _ => 3) (fun _ => 7)).getD 1 zeroVec
      = Ustate 1 (fun _ _ => (2:ℚ)) (fun _ => 3) (fun _ => 7) 1 := by
  have h := march_grid_shape 2 1 (fun _ _ => (2:ℚ)) (fun _ => 3) (fun _ => 7) (by norm_num)
  exact ⟨h.1, h.2.1, h.2.2 1 (by norm_num)⟩

/-- Claim C3: whenever the assembly cell produces a matrix `A`, that matrix is
tridiagonal — diagonal entries `1-2s`, sub- and super-diagonal entries `s`,
every entry off the three central diagonals exactly zero. -/
theorem assembled_matrix_tridiagonal (n : Nat) (s : ℚ) (A : Nat → Nat → ℚ)
    (hA : assembleA n s = some A) :
    (∀ i, i < n → A i i = 1 - 2*s) ∧
    (∀ i, i + 1 < n → A (i+1) i = s ∧ A i (i+1) = s) ∧
    (∀ i j, i < n → j < n → j ≠ i → j + 1 ≠ i → j ≠ i + 1 → A i j = 0) := by
  rcases Nat.lt_or_ge n 2 with hn | hn
  · interval_cases n
    · exact ⟨fun i hi => absurd hi (by omega), fun i hi => absurd hi (by omega),
        fun i j hi _ _ _ _ => absurd hi (by omega)⟩
    · rw [assembleA_one] at hA
      cases hA
  · rw [assembleA_closed n s hn] at hA
    have hAe : triA n s = A := Option.some_inj.mp hA
    subst hAe
    refine ⟨fun i hi => ?_, fun i hi => ⟨?_, ?_⟩, fun i j hi hj h1 h2 h3 => ?_⟩ <;>
      simp only [triA] <;>
      split_ifs <;> first | rfl | (exfalso; omega) | (exfalso; simp_all)

/-- Witness for claim C3 at `n = 2`, `s = 1/3`. -/
theorem assembled_matrix_tridiagonal_witness :
    triA 2 ((1:ℚ)/3) 0 0 = 1 - 2*((1:ℚ)/3) ∧
    (triA 2 ((1:ℚ)/3) 1 0 = (1:ℚ)/3 ∧ triA 2 ((1:ℚ)/3) 0 1 = (1:ℚ)/3) := by
  have h := assembled_matrix_tridiagonal 2 ((1:ℚ)/3) (triA 2 ((1:ℚ)/3))
    (assembleA_closed 2 ((1:ℚ)/3) (by norm_num))
  exact ⟨h.1 0 (by norm_num), h.2.1 0 (by norm_num)⟩

/-- Counterexample to claim C4: at `n = 1` the assembly cell does not succeed —
the `i == 0` branch writes the out-of-range entry `A[0, 1]` and assembly
aborts with an index error, producing no matrix. -/
theorem n1_assembly_fails_cex : assembleA 1 ((1:ℚ)/2) = none := rfl

/-- Amended claim C4: at `n = 1` matrix assembly fails with an out-of-range
write (the unguarded `A[i, i+1] = s` of the `i == 0` branch), so no 1×1
matrix is produced; the Dirichlet cell on its own does write both boundary
injections onto the single entry `B[0] = s`. -/
theorem n1_assembly_fails (s : ℚ) :
    assembleA 1 s = none ∧ applyDirichlet 1 s = some (dirB 1 s) ∧ dirB 1 s 0 = s :=
  ⟨rfl, applyDirichlet_closed 1 s (by norm_num), rfl⟩

/-- Claim C5: with `n = 39`, `L = 1`, `kappa = 1e-5`, `m = 600`,
`T_total = 12000`, the stepping number `s = kappa·dT/dX²` equals `0.32`. -/
theorem stepping_number_is_032 :
    sval ((10:ℚ)^(-5:ℤ)) 1 12000 39 600 = 0.32 := by
  norm_num [sval]

/-- Claim C7: with pure Dirichlet boundaries and `s = 0` the per-step
recurrence is the identity on the `n` interior nodes: the assembled `A` acts
as the identity and the boundary vector `B` vanishes. -/
theorem zero_s_identity (n : Nat) (A : Nat → Nat → ℚ) (B U0 U : Nat → ℚ)
    (hA : assembleA n (0:ℚ) = some A) (hB : applyDirichlet n (0:ℚ) = some B)
    (k i : Nat) (hi : i < n) :
    stepU n A B U i = U i ∧
    Ustate n A B U0 (k+1) i = Ustate n A B U0 k i := by
  rcases Nat.lt_or_ge n 2 with hn | hn
  · interval_cases n
    · exact absurd hi (by omega)
    · rw [assembleA_one] at hA
      cases hA
  · rw [assembleA_closed n 0 hn] at hA
    rw [applyDirichlet_closed n 0 (by omega)] at hB
    have hAe : triA n 0 = A := Option.some_inj.mp hA
    have hBe : dirB n 0 = B := Option.some_inj.mp hB
    subst hAe
    subst hBe
    have hstep : ∀ V : Nat → ℚ, stepU n (triA n 0) (dirB n 0) V i = V i := by
      intro V
      rw [stepU, matvec_triA n 0 V i hi]
      have hB0 : dirB n (0:ℚ) i = 0 := by
        simp only [dirB]
        split_ifs <;> rfl
      rw [hB0]
      split_ifs <;> ring
    exact ⟨hstep U, hstep _⟩

/-- Witness for claim C7 at `n = 2`, `k = 0`, `i = 0` with `U j = j`. -/
theorem zero_s_identity_witness :
    stepU 2 (triA 2 (0:ℚ)) (dirB 2 0) (fun j => (j:ℚ)) 0 = (fun j => (j:ℚ)) 0 ∧
    Ustate 2 (triA 2 (0:ℚ)) (dirB 2 0) (fun j => (j:ℚ)) 1 0
      = Ustate 2 (triA 2 (0:ℚ)) (dirB 2 0) (fun j => (j:ℚ)) 0 0 :=
  zero_s_identity 2 (triA 2 0) (dirB 2 0) (fun j => (j:ℚ)) (fun j => (j:ℚ))
    (assembleA_closed 2 0 (by norm_num)) (applyDirichlet_closed 2 0 (by norm_num))
    0 0 (by norm_num)

/-- Counterexample to claim C8: the malformed configuration `n = 0` is not
rejected before assembly — the assembly cell completes without any error
(the loop body never runs), and the failure only surfaces afterwards, when
the Dirichlet cell's write `B[0] = s` is out of range. -/
theorem no_fail_fast_cex :
    assembleA 0 ((1:ℚ)/2) = some zeroMat ∧ applyDirichlet 0 ((1:ℚ)/2) = none :=
  ⟨rfl, rfl⟩

/-- Amended claim C8: the code performs no configuration validation and does
not fail before assembly; a malformed configuration such as `n = 0` passes
matrix assembly untouched and only errors later, at the boundary-injection
write that first uses an out-of-range index. -/
theorem no_config_validation (s : ℚ) :
    assembleA 0 s = some zeroMat ∧ applyDirichlet 0 s = none :=
  ⟨rfl, rfl⟩

/-- Claim C9: matrix assembly, boundary injection and the marching loop are
deterministic pure functions — identical configurations and identical
`A`, `B`, `U_0`, step count yield identical outputs. -/
theorem assembly_march_deterministic (n1 n2 m1 m2 : Nat) (s1 s2 : ℚ)
    (A1 A2 : Nat → Nat → ℚ) (B1 B2 U1 U2 : Nat → ℚ)
    (hn : n1 = n2) (hs : s1 = s2) (hm : m1 = m2) (hA : A1 = A2) (hB : B1 = B2)
    (hU : U1 = U2) :
    assembleA n1 s1 = assembleA n2 s2 ∧
    applyDirichlet n1 s1 = applyDirichlet n2 s2 ∧
    marchFold m1 n1 A1 B1 U1 = marchFold m2 n2 A2 B2 U2 := by
  subst hn
  subst hs
  subst hm
  subst hA
  subst hB
  subst hU
  exact ⟨rfl, rfl, rfl⟩

/-- Witness for claim C9 at `n = 3`, `m = 2`, `s = 1/2` with zero data. -/
theorem assembly_march_deterministic_witness :
    assembleA 3 ((1:ℚ)/2) = assembleA 3 ((1:ℚ)/2) ∧
    applyDirichlet 3 ((1:ℚ)/2) = applyDirichlet 3 ((1:ℚ)/2) ∧
    marchFold 2 3 (zeroMat : Nat → Nat → ℚ) zeroVec zeroVec
      = marchFold 2 3 (zeroMat : Nat → Nat → ℚ) zeroVec zeroVec :=
  assembly_march_deterministic 3 3 2 2 ((1:ℚ)/2) ((1:ℚ)/2) zeroMat zeroMat
    zeroVec zeroVec zeroVec zeroVec rfl rfl rfl rfl rfl rfl

/-- Claim C10: after boundary injection the vector `B` has `B[0] = s`,
`B[n-1] = s` and zero elsewhere (constant Dirichlet values `g1 = g2 = 1`),
and every marching iteration uses this same unchanged `B`. -/
theorem boundary_vector_invariant (n : Nat) (s : ℚ) (B : Nat → ℚ)
    (hn : 1 ≤ n) (hB : applyDirichlet n s = some B) :
    (B 0 = s ∧ B (n-1) = s ∧ ∀ i, i < n → i ≠ 0 → i ≠ n - 1 → B i = 0) ∧
    ∀ (A : Nat → Nat → ℚ) (U0 : Nat → ℚ) (k : Nat),
      Ustate n A B U0 (k+1) = stepU n A B (Ustate n A B U0 k) := by
  rw [applyDirichlet_closed n s hn] at hB
  have hBe : dirB n s = B := Option.some_inj.mp hB
  subst hBe
  refine ⟨⟨?_, ?_, ?_⟩, fun A U0 k => rfl⟩
  · simp only [dirB]
    split_ifs <;> rfl
  · simp [dirB]
  · intro i hi h0 h1
    simp only [dirB]
    rw [if_neg h1, if_neg h0]

/-- Witness for claim C10 at `n = 2`, `s = 1/3`, one marching step. -/
theorem boundary_vector_invariant_witness :
    dirB 2 ((1:ℚ)/3) 0 = (1:ℚ)/3 ∧ dirB 2 ((1:ℚ)/3) 1 = (1:ℚ)/3 ∧
    Ustate 2 (zeroMat : Nat → Nat → ℚ) (dirB 2 ((1:ℚ)/3)) zeroVec 1
      = stepU 2 (zeroMat : Nat → Nat → ℚ) (dirB 2 ((1:ℚ)/3))
          (Ustate 2 (zeroMat : Nat → Nat → ℚ) (dirB 2 ((1:ℚ)/3)) zeroVec 0) := by
  have h := boundary_vector_invariant 2 ((1:ℚ)/3) (dirB 2 ((1:ℚ)/3)) (by norm_num)
    (applyDirichlet_closed 2 ((1:ℚ)/3) (by norm_num))
  exact ⟨h.1.1, h.1.2.1, h.2 zeroMat zeroVec 0⟩

/-- Claim C6: in the run with `n = 39`, `L = 1`, `kappa = 1e-5`, `m = 600`,
`T_total = 12000` (so `s = 0.32 ≤ 0.5`) and the half-sine initial condition
`100·sin(π·x/L)` sampled at the interior nodes `x_j = (j+1)/40`, the maximum
absolute value over the last row (index `m-1 = 599`) of the result grid is at
most the maximum absolute value over row `0`. -/
theorem stable_run_energy_decay :
    ∃ (A : Nat → Nat → ℝ) (B : Nat → ℝ),
      assembleA 39 (sval ((10:ℝ)^(-5:ℤ)) 1 12000 39 600) = some A ∧
      applyDirichlet 39 (sval ((10:ℝ)^(-5:ℤ)) 1 12000 39 600) = some B ∧
      rowMaxAbs 39 ((marchFold 600 39 A B
          (fun j => 100 * Real.sin (Real.pi * (((j:ℝ)+1)/40) / 1))).getD 599 zeroVec)
        ≤ rowMaxAbs 39 ((marchFold 600 39 A B
          (fun j => 100 * Real.sin (Real.pi * (((j:ℝ)+1)/40) / 1))).getD 0 zeroVec) := by
  have hsv : sval ((10:ℝ)^(-5:ℤ)) 1 12000 39 600 = 8/25 := by
    norm_num [sval]
  refine ⟨triA 39 _, dirB 39 _, assembleA_closed 39 _ (by norm_num),
    applyDirichlet_closed 39 _ (by norm_num), ?_⟩
  apply run_decay_bound
  · rw [hsv]
    norm_num
  · rw [hsv]
    norm_num
  · intro j _
    show |100 * Real.sin (Real.pi * (((j:ℝ)+1)/40) / 1)| ≤ (100:ℝ)
    rw [abs_mul, abs_of_nonneg (by norm_num : (0:ℝ) ≤ 100)]
    have hsin := Real.abs_sin_le_one (Real.pi * (((j:ℝ)+1)/40) / 1)
    nlinarith
  · show |100 * Real.sin (Real.pi * ((((19:ℕ):ℝ)+1)/40) / 1)| = (100:ℝ)
    have h1 : ((((19:ℕ):ℝ))+1)/40 = 1/2 := by
      norm_num
    rw [h1, show Real.pi * (1/2) / 1 = Real.pi / 2 by ring, Real.sin_pi_div_two]
    norm_num

end Diffusion
